import Mathlib

/-!
Verification of the natural-language specification of `IBMModel1.py` against a
shallow embedding of its code.  Tokens are strings, probabilities are exact
rationals (the Python source uses floats; the algebraic identities proved
below hold exactly over ℚ, hence within any floating-point tolerance).

Python dictionaries are embedded as insertion-ordered association lists.
`defaultdict` reads (`__getitem__`) that insert the default on a missing key
are modelled explicitly, since the source relies on them.  Fallible
operations (the divisions of `train_model`, which raise `ZeroDivisionError`
in Python when a divisor is zero) have checked variants returning `Option`;
the safety claim proves the checked and unchecked runs agree.
-/

set_option maxHeartbeats 1600000

set_option linter.unusedVariables false

set_option linter.unusedSectionVars false

abbrev Token := String

abbrev WPair := Token × Token

abbrev Sentence := List Token

/-- Insertion-ordered association list: the embedding of a Python `dict`. -/
abbrev PDict (κ ν : Type) := List (κ × ν)

/-- Embedding of a Python dict read that does not insert: returns the value of
the first entry with key `k`, `none` when the key is missing. -/
def alookup {κ ν : Type} [DecidableEq κ] : PDict κ ν → κ → Option ν
  | [], _ => none
  | p :: rest, k => if p.1 = k then some p.2 else alookup rest k

/-- Embedding of Python `d[k] = v`: updates the first entry with key `k` in
place (keeping its position, like CPython dicts), else appends at the end. -/
def aset {κ ν : Type} [DecidableEq κ] : PDict κ ν → κ → ν → PDict κ ν
  | [], k, v => [(k, v)]
  | p :: rest, k, v => if p.1 = k then (k, v) :: rest else p :: aset rest k v

/-- Keys of an association list in insertion order. -/
def akeys {κ ν : Type} (m : PDict κ ν) : List κ := m.map Prod.fst

/-- Numeric accumulator dictionaries of the trainer: `defaultdict(float)`. -/
abbrev QMap (κ : Type) := PDict κ ℚ

/-- Embedding of reading `m[k]` on a `defaultdict(float)`: missing keys give 0. -/
def dget {κ : Type} [DecidableEq κ] (m : QMap κ) (k : κ) : ℚ :=
  (alookup m k).getD 0

/-- Embedding of `m[k] += v` on a `defaultdict(float)`: read (0 when missing),
add, store. -/
def dadd {κ : Type} [DecidableEq κ] (m : QMap κ) (k : κ) (v : ℚ) : QMap κ :=
  aset m k (dget m k + v)

/-- Embedding of `self.trans_prob`, the `defaultdict(lambda: 1/num_f_words)`
built by `initialize_translation_probability` (lines 46-53): explicit entries
plus the fixed default returned (and inserted) on a missing key. -/
structure Table where
  entries : QMap WPair
  dflt : ℚ
deriving DecidableEq

/-- Value that a read of `self.trans_prob[p]` returns: the stored entry if one
exists, else the table's default. -/
def Table.getVal (t : Table) (p : WPair) : ℚ :=
  (alookup t.entries p).getD t.dflt

/-- Embedding of the read `self.trans_prob[p]` on the `defaultdict`: returns
the value AND the possibly-extended table, because `__getitem__` on a missing
key inserts the default as a new explicit entry (at the end, in insertion
order). -/
def Table.getItem (t : Table) (p : WPair) : ℚ × Table :=
  match alookup t.entries p with
  | some v => (v, t)
  | none => (t.dflt, ⟨aset t.entries p t.dflt, t.dflt⟩)

/-- Embedding of the write `self.trans_prob[p] = v` (line 74). -/
def Table.setItem (t : Table) (p : WPair) (v : ℚ) : Table :=
  ⟨aset t.entries p v, t.dflt⟩

/-- Corpus as built by `initialize_corpus` (lines 37-44): a dict keyed by the
tokenized English sentence, whose items are iterated in insertion order. -/
abbrev Corpus := PDict Sentence Sentence

/-- Embedding of the corpus-building loop of `initialize_corpus` (lines
37-43): `corpus[sentence1] = sentence2` over the loaded line pairs in order.
File reading and tokenization are external collaborators; the argument is the
list of already-tokenized line pairs in the order they are read. -/
def initialize_corpus (pairs : List (Sentence × Sentence)) : Corpus :=
  pairs.foldl (fun c pr => aset c pr.1 pr.2) []

/-- Specification-side description for the corpus dictionary (claim C3): the
value of the LAST loaded pair whose English side equals `k`. -/
def lastMatch {κ ν : Type} [DecidableEq κ] : List (κ × ν) → κ → Option ν
  | [], _ => none
  | p :: rest, k =>
    match lastMatch rest k with
    | some v => some v
    | none => if p.1 = k then some p.2 else none

/-- Distinct source-token (foreign-word) types of the whole corpus:
`len(set(f_word for (e, f_sent) in corpus.items() for f_word in f_sent))`
(line 51). -/
def numFWords (corpus : Corpus) : Nat :=
  (corpus.flatMap (fun pr => pr.2)).dedup.length

/-- Embedding of `initialize_translation_probability` (lines 46-53): an empty
table whose fixed default is `1/num_f_words`. -/
def initialize_translation_probability (corpus : Corpus) : Table :=
  ⟨[], 1 / (numFWords corpus : ℚ)⟩

/-- Body of the innermost loop of lines 66-68, for a fixed `e_word`:
`for f_word in foreign_sent: sentence_total[e_word] += trans_prob[(e_word, f_word)]`.
The table is threaded because the `defaultdict` read inserts missing keys. -/
def totalPassF (e : Token) (F : Sentence) (b : Table × QMap Token) :
    Table × QMap Token :=
  F.foldl
    (fun b f =>
      let r := Table.getItem b.1 (e, f)
      (r.2, dadd b.2 e r.1))
    b

/-- Embedding of the first inner loop pair of `train_model` (lines 66-68). -/
def totalPass (F : Sentence) (acc : Table × QMap Token) (E : Sentence) :
    Table × QMap Token :=
  E.foldl (fun a e => totalPassF e F a) acc

/-- Body of the innermost loop of lines 69-72, for a fixed `e_word`: for each
`f_word` accumulate `trans_prob[(e,f)] / sentence_total[e]` into
`count_e_given_f[(e,f)]` and `total[f]`. -/
def evidencePassF (st : QMap Token) (e : Token) (F : Sentence)
    (b : Table × QMap WPair × QMap Token) :
    Table × QMap WPair × QMap Token :=
  F.foldl
    (fun b f =>
      let r := Table.getItem b.1 (e, f)
      let d := r.1 / dget st e
      (r.2, dadd b.2.1 (e, f) d, dadd b.2.2 f d))
    b

/-- Embedding of the second inner loop pair of `train_model` (lines 69-72). -/
def evidencePass (F : Sentence) (st : QMap Token)
    (acc : Table × QMap WPair × QMap Token) (E : Sentence) :
    Table × QMap WPair × QMap Token :=
  E.foldl (fun a e => evidencePassF st e F a) acc

/-- Checked variant of `evidencePassF`: Python raises `ZeroDivisionError` when
`sentence_total[e_word]` is zero, modelled as `none`. -/
def evidencePassFC (st : QMap Token) (e : Token) (F : Sentence)
    (b : Table × QMap WPair × QMap Token) :
    Option (Table × QMap WPair × QMap Token) :=
  F.foldlM
    (fun b f =>
      let r := Table.getItem b.1 (e, f)
      if dget st e = 0 then none
      else some (r.2, dadd b.2.1 (e, f) (r.1 / dget st e), dadd b.2.2 f (r.1 / dget st e)))
    b

/-- Checked variant of `evidencePass`. -/
def evidencePassC (F : Sentence) (st : QMap Token)
    (acc : Table × QMap WPair × QMap Token) (E : Sentence) :
    Option (Table × QMap WPair × QMap Token) :=
  E.foldlM (fun a e => evidencePassFC st e F a) acc

/-- State of one iteration of the E-step of `train_model`: the (mutating)
probability table and the three accumulator dicts of lines 62-64.  Note that
in the source `sentence_total` is zero-initialized once per ITERATION (line
64), outside the loop over sentence pairs, so it persists across pairs. -/
structure EState where
  table : Table
  st : QMap Token
  count : QMap WPair
  total : QMap Token
deriving DecidableEq

/-- Body of the per-sentence-pair loop of the E-step (lines 65-72). -/
def eStepGo (s : EState) (pr : Sentence × Sentence) : EState :=
  let r1 := totalPass pr.2 (s.table, s.st) pr.1
  let r2 := evidencePass pr.2 r1.2 (r1.1, s.count, s.total) pr.1
  ⟨r2.1, r1.2, r2.2.1, r2.2.2⟩

/-- Embedding of one iteration's E-step (lines 62-72): fresh accumulators,
then for each sentence pair the two nested loop pairs, in corpus order. -/
def eStep (corpus : Corpus) (t : Table) : EState :=
  corpus.foldl eStepGo ⟨t, [], [], []⟩

/-- Checked variant of `eStepGo`. -/
def eStepGoC (s : EState) (pr : Sentence × Sentence) : Option EState :=
  let r1 := totalPass pr.2 (s.table, s.st) pr.1
  (evidencePassC pr.2 r1.2 (r1.1, s.count, s.total) pr.1).map
    (fun r2 => ⟨r2.1, r1.2, r2.2.1, r2.2.2⟩)

/-- Checked variant of `eStep`. -/
def eStepC (corpus : Corpus) (t : Table) : Option EState :=
  corpus.foldlM eStepGoC ⟨t, [], [], []⟩

/-- Body of the M-step loop (lines 73-74):
`trans_prob[(e,f)] = count_e_given_f[(e,f)] / total[f]`. -/
def mStepGo (count : QMap WPair) (total : QMap Token) (tb : Table)
    (kv : WPair × ℚ) : Table :=
  Table.setItem tb kv.1 (dget count kv.1 / dget total kv.1.2)

/-- Embedding of the M-step (lines 73-74), iterating the keys of
`count_e_given_f` in insertion order. -/
def mStep (t : Table) (count : QMap WPair) (total : QMap Token) : Table :=
  count.foldl (mStepGo count total) t

/-- Checked variant of `mStepGo`: `none` when `total[f]` is zero. -/
def mStepGoC (count : QMap WPair) (total : QMap Token) (tb : Table)
    (kv : WPair × ℚ) : Option Table :=
  if dget total kv.1.2 = 0 then none
  else some (Table.setItem tb kv.1 (dget count kv.1 / dget total kv.1.2))

/-- Checked variant of `mStep`. -/
def mStepC (t : Table) (count : QMap WPair) (total : QMap Token) : Option Table :=
  count.foldlM (mStepGoC count total) t

/-- One full iteration of the loop body of `train_model` (lines 61-74). -/
def trainStep (corpus : Corpus) (t : Table) : Table :=
  let s := eStep corpus t
  mStep s.table s.count s.total

/-- Checked variant of `trainStep`. -/
def trainStepC (corpus : Corpus) (t : Table) : Option Table :=
  (eStepC corpus t).bind (fun s => mStepC s.table s.count s.total)

/-- Embedding of `train_model` (lines 55-76): `iteration_count` iterations of
the EM step over the given table, returning the final table. -/
def train_model (corpus : Corpus) (t : Table) : Nat → Table
  | 0 => t
  | Nat.succ n => train_model corpus (trainStep corpus t) n

/-- Checked variant of `train_model`: `some` exactly when no iteration ever
divides by zero. -/
def train_modelC (corpus : Corpus) (t : Table) : Nat → Option Table
  | 0 => some t
  | Nat.succ n => (trainStepC corpus t).bind (fun t2 => train_modelC corpus t2 n)

/-- The conditional dictionary `self.conditional_dict`: a
`defaultdict(list)` mapping a foreign word to its `(e_word, value)` list. -/
abbrev CDict := PDict Token (List (Token × ℚ))

/-- Embedding of reading `self.conditional_dict[f_word]`: missing keys give
the empty list. -/
def cdGet (d : CDict) (k : Token) : List (Token × ℚ) :=
  (alookup d k).getD []

/-- Embedding of `cond_dict` (lines 78-84): for every `((e, f), value)` item
of `trans_prob` in insertion order, append `(e, value)` to
`conditional_dict[f]`.  (`conditional_dict` starts empty, per `__init__`.) -/
def condStep (d : CDict) (kv : WPair × ℚ) : CDict :=
  aset d kv.1.2 (cdGet d kv.1.2 ++ [(kv.1.1, kv.2)])

def cond_dict (t : Table) : CDict :=
  t.entries.foldl condStep []

/-- Body of the loop of `get_max` (lines 92-95): replace the current best
exactly when the candidate's probability is strictly greater. -/
def getMaxStep (maxi : Option Token × ℚ) (tup : Token × ℚ) : Option Token × ℚ :=
  if tup.2 > maxi.2 then (some tup.1, tup.2) else maxi

/-- Embedding of `get_max` (lines 86-96).  `conditionalDict` is the instance
field `self.conditional_dict`; `condDictArg` is the method's `cond_dict`
parameter, which the body never reads (it loops over
`self.conditional_dict[f_word]`).  `maxi` starts at `(None, 0)`. -/
def get_max (conditionalDict : CDict) (f_word : Token) (condDictArg : CDict) :
    Option Token × ℚ :=
  (cdGet conditionalDict f_word).foldl getMaxStep (none, 0)

/-- All `(e_word, f_word)` combinations the training loops visit, in loop
order: for each sentence pair, each English token paired with each foreign
token of the same pair. -/
def coPairs (corpus : Corpus) : List WPair :=
  corpus.flatMap (fun pr => pr.1.flatMap (fun e => pr.2.map (fun f => (e, f))))

/-- Sum of the values of the explicit entries `(e, f)` of the table whose
source token equals `f`: the quantity of the normalization invariant. -/
def rowSum (t : Table) (f : Token) : ℚ :=
  ((t.entries.filter (fun kv => kv.1.2 = f)).map (fun kv => kv.2)).sum

/-- Sum of the values of the accumulator entries whose key's source token is
`f` (the quantity `total[f]` tracks during the E-step). -/
def sumF (m : QMap WPair) (f : Token) : ℚ :=
  ((m.filter (fun kv => kv.1.2 = f)).map (fun kv => kv.2)).sum

/-- Well-formed corpus: both token sequences of every sentence pair are
non-empty (the loader prepends the `"NULL"` token to each). -/
def WFCorpus (corpus : Corpus) : Prop :=
  ∀ pr ∈ corpus, pr.1 ≠ [] ∧ pr.2 ≠ []

/-- All values a table can return are strictly positive: the default and
every explicit entry. -/
def TablePos (t : Table) : Prop :=
  0 < t.dflt ∧ ∀ kv ∈ t.entries, 0 < kv.2

/-- Numeric invariant maintained by the E-step across sentence pairs. -/
def EInv (s : EState) : Prop :=
  TablePos s.table ∧ (∀ x, 0 ≤ dget s.st x) ∧
  (∀ kv ∈ s.count, 0 < kv.2) ∧ (∀ f, dget s.total f = sumF s.count f)

/-- Toy corpus of the spec's convergence property: N repeated copies of the
pair E = ["NULL","dog"], F = ["NULL","perro"] collapse (the corpus is a dict
keyed by E) to this single entry. -/
def toyCorpus : Corpus := [(["NULL", "dog"], ["NULL", "perro"])]

/-- The table reached after one EM iteration on `toyCorpus`: the four
co-occurring pairs, every probability equal to the uniform 1/2. -/
def toyTable : Table :=
  ⟨[(("NULL", "NULL"), 1/2), (("NULL", "perro"), 1/2),
    (("dog", "NULL"), 1/2), (("dog", "perro"), 1/2)], 1/2⟩

/-- Two-sentence corpus exhibiting the cross-sentence leak of
`sentence_total` (the English sides differ, so the dict keeps both pairs;
the shared "NULL" token accumulates across the two pairs). -/
def corpusC1 : Corpus := [(["NULL", "a"], ["NULL", "x"]), (["NULL", "b"], ["NULL", "y"])]

/-- Concrete conditional dictionary used to exercise `get_max`: one source
token with three candidate translations, the maximal probability attained
twice (first at index 1). -/
def condToy : CDict := [("perro", [("dog", 1/2), ("cat", 3/4), ("rat", 3/4)])]

/-! Basic lemmas about association-list lookup and store. -/

section PDictLemmas

variable {κ ν : Type} [DecidableEq κ]

theorem akeys_nil : akeys ([] : PDict κ ν) = [] := rfl

theorem akeys_cons (p : κ × ν) (m : PDict κ ν) :
    akeys (p :: m) = p.1 :: akeys m := rfl

theorem akeys_append (m m' : PDict κ ν) :
    akeys (m ++ m') = akeys m ++ akeys m' := by
  simp [akeys]

theorem mem_akeys (m : PDict κ ν) (k : κ) :
    k ∈ akeys m ↔ ∃ kv ∈ m, kv.1 = k := by
  unfold akeys
  exact List.mem_map

theorem alookup_aset (m : PDict κ ν) (k : κ) (v : ν) (k' : κ) :
    alookup (aset m k v) k' = if k = k' then some v else alookup m k' := by
  induction m with
  | nil => by_cases hk : k = k' <;> simp [aset, alookup, hk]
  | cons p rest ih =>
    by_cases hp : p.1 = k
    · by_cases hk : k = k' <;> simp [aset, alookup, hp, hk]
    · by_cases hq : p.1 = k'
      · have hk : ¬ k = k' := fun h => hp (h ▸ hq)
        have hk2 : ¬ k' = k := fun h => hk h.symm
        simp [aset, alookup, hp, hq, hk, hk2]
      · simp [aset, alookup, hp, hq, ih]

theorem akeys_aset (m : PDict κ ν) (k : κ) (v : ν) :
    akeys (aset m k v) = if k ∈ akeys m then akeys m else akeys m ++ [k] := by
  induction m with
  | nil => simp [aset, akeys]
  | cons p rest ih =>
    by_cases hp : p.1 = k
    · have hmem : k ∈ akeys (p :: rest) := by
        rw [akeys_cons, hp]
        exact List.mem_cons_self _ _
      rw [if_pos hmem]
      simp [aset, hp, akeys_cons]
    · have hk1 : ¬ k = p.1 := fun h => hp h.symm
      by_cases hm : k ∈ akeys rest
      · have hmem : k ∈ akeys (p :: rest) := by
          rw [akeys_cons]; exact List.mem_cons_of_mem _ hm
        rw [if_pos hmem]
        have ih2 : akeys (aset rest k v) = akeys rest := by rw [ih, if_pos hm]
        simp [aset, hp, akeys_cons, ih2]
      · have hmem : k ∉ akeys (p :: rest) := by
          rw [akeys_cons]
          intro hcon
          rcases List.mem_cons.mp hcon with h | h
          · exact hk1 h
          · exact hm h
        rw [if_neg hmem]
        have ih2 : akeys (aset rest k v) = akeys rest ++ [k] := by rw [ih, if_neg hm]
        simp [aset, hp, akeys_cons, ih2]

theorem mem_akeys_aset (m : PDict κ ν) (k : κ) (v : ν) (k' : κ) :
    k' ∈ akeys (aset m k v) ↔ k' ∈ akeys m ∨ k' = k := by
  rw [akeys_aset]
  by_cases hm : k ∈ akeys m
  · rw [if_pos hm]
    constructor
    · exact Or.inl
    · rintro (h | rfl)
      · exact h
      · exact hm
  · rw [if_neg hm]
    simp [List.mem_append]

theorem nodup_akeys_aset (m : PDict κ ν) (k : κ) (v : ν)
    (h : (akeys m).Nodup) : (akeys (aset m k v)).Nodup := by
  rw [akeys_aset]
  by_cases hm : k ∈ akeys m
  · rwa [if_pos hm]
  · rw [if_neg hm]
    refine List.Nodup.append h (List.nodup_singleton k) ?_
    intro a ha hb
    rw [List.mem_singleton] at hb
    subst hb
    exact hm ha

theorem mem_aset (m : PDict κ ν) (k : κ) (v : ν) (kv : κ × ν)
    (h : kv ∈ aset m k v) : kv ∈ m ∨ kv = (k, v) := by
  induction m with
  | nil => simpa [aset] using h
  | cons p rest ih =>
    by_cases hp : p.1 = k
    · simp only [aset, hp, if_true] at h
      rcases List.mem_cons.mp h with h | h
      · exact Or.inr h
      · exact Or.inl (List.mem_cons_of_mem _ h)
    · simp only [aset, hp, if_false] at h
      rcases List.mem_cons.mp h with h | h
      · exact Or.inl (h ▸ List.mem_cons_self _ _)
      · rcases ih h with h2 | h2
        · exact Or.inl (List.mem_cons_of_mem _ h2)
        · exact Or.inr h2

theorem alookup_mem (m : PDict κ ν) (k : κ) (v : ν)
    (h : alookup m k = some v) : (k, v) ∈ m := by
  induction m with
  | nil => simp [alookup] at h
  | cons p rest ih =>
    obtain ⟨a, b⟩ := p
    by_cases hp : a = k
    · simp only [alookup, hp, if_true, Option.some.injEq] at h
      subst hp; subst h
      exact List.mem_cons_self _ _
    · simp only [alookup, hp, if_false] at h
      exact List.mem_cons_of_mem _ (ih h)

theorem alookup_eq_none (m : PDict κ ν) (k : κ) :
    alookup m k = none ↔ k ∉ akeys m := by
  induction m with
  | nil => simp [alookup, akeys]
  | cons p rest ih =>
    rw [akeys_cons]
    by_cases hp : p.1 = k
    · simp [alookup, hp]
    · have : ¬ k = p.1 := fun h => hp h.symm
      simp [alookup, hp, ih, this]

theorem alookup_isSome (m : PDict κ ν) (k : κ) (h : k ∈ akeys m) :
    ∃ v, alookup m k = some v := by
  cases hl : alookup m k with
  | none => exact absurd h ((alookup_eq_none m k).mp hl)
  | some v => exact ⟨v, rfl⟩

theorem alookup_of_nodup (m : PDict κ ν) (kv : κ × ν)
    (hnd : (akeys m).Nodup) (h : kv ∈ m) : alookup m kv.1 = some kv.2 := by
  induction m with
  | nil => simp at h
  | cons p rest ih =>
    rw [akeys_cons] at hnd
    have hnd2 := List.nodup_cons.mp hnd
    rcases List.mem_cons.mp h with h | h
    · subst h; simp [alookup]
    · have hne : p.1 ≠ kv.1 := by
        intro he
        exact hnd2.1 (he ▸ (mem_akeys rest kv.1).mpr ⟨kv, h, rfl⟩)
      simp [alookup, hne, ih hnd2.2 h]

end PDictLemmas

/-! Lemmas about the numeric accumulator dictionaries. -/

section QMapLemmas

variable {κ : Type} [DecidableEq κ]

theorem dget_dadd (m : QMap κ) (k : κ) (v : ℚ) (k' : κ) :
    dget (dadd m k v) k' = if k = k' then dget m k' + v else dget m k' := by
  unfold dget dadd
  rw [alookup_aset]
  by_cases hk : k = k'
  · subst hk; simp [dget]
  · simp [hk]

theorem dget_dadd_self (m : QMap κ) (k : κ) (v : ℚ) :
    dget (dadd m k v) k = dget m k + v := by
  rw [dget_dadd, if_pos rfl]

theorem dget_dadd_mono (m : QMap κ) (k : κ) (v : ℚ) (hv : 0 ≤ v) (k' : κ) :
    dget m k' ≤ dget (dadd m k v) k' := by
  rw [dget_dadd]
  by_cases hk : k = k' <;> simp [hk, hv]

theorem dget_nonneg (m : QMap κ) (k : κ) (h : ∀ kv ∈ m, 0 ≤ kv.2) :
    0 ≤ dget m k := by
  unfold dget
  cases hl : alookup m k with
  | none => simp
  | some v => simpa using h _ (alookup_mem m k v hl)

theorem dget_nonneg_of_pos (m : QMap κ) (k : κ) (h : ∀ kv ∈ m, 0 < kv.2) :
    0 ≤ dget m k :=
  dget_nonneg m k (fun kv hkv => le_of_lt (h kv hkv))

theorem dadd_pos (m : QMap κ) (k : κ) (v : ℚ)
    (h : ∀ kv ∈ m, 0 < kv.2) (hv : 0 < v) :
    ∀ kv ∈ dadd m k v, 0 < kv.2 := by
  intro kv hkv
  rcases mem_aset m k _ kv hkv with h2 | h2
  · exact h kv h2
  · rw [h2]
    have := dget_nonneg_of_pos m k h
    simpa using add_pos_of_nonneg_of_pos this hv

theorem dget_pos_of_mem (m : QMap κ) (kv : κ × ℚ)
    (h : ∀ kv ∈ m, 0 < kv.2) (hm : kv ∈ m) : 0 < dget m kv.1 := by
  unfold dget
  cases hl : alookup m kv.1 with
  | none =>
    have : kv.1 ∈ akeys m := (mem_akeys m kv.1).mpr ⟨kv, hm, rfl⟩
    exact absurd this ((alookup_eq_none m kv.1).mp hl)
  | some v => simpa using h _ (alookup_mem m kv.1 v hl)

theorem mem_akeys_dadd (m : QMap κ) (k : κ) (v : ℚ) (k' : κ) :
    k' ∈ akeys (dadd m k v) ↔ k' ∈ akeys m ∨ k' = k :=
  mem_akeys_aset m k (dget m k + v) k'

theorem nodup_akeys_dadd (m : QMap κ) (k : κ) (v : ℚ)
    (h : (akeys m).Nodup) : (akeys (dadd m k v)).Nodup :=
  nodup_akeys_aset m k (dget m k + v) h

theorem dget_of_nodup (m : QMap κ) (kv : κ × ℚ)
    (hnd : (akeys m).Nodup) (h : kv ∈ m) : dget m kv.1 = kv.2 := by
  unfold dget
  rw [alookup_of_nodup m kv hnd h]
  rfl

end QMapLemmas

/-! Lemmas about `sumF`, the per-source-token sum of accumulator values. -/

theorem sumF_nil (f : Token) : sumF [] f = 0 := rfl

theorem sumF_cons (kv : WPair × ℚ) (m : QMap WPair) (f : Token) :
    sumF (kv :: m) f = (if kv.1.2 = f then kv.2 else 0) + sumF m f := by
  by_cases h : kv.1.2 = f <;> simp [sumF, List.filter_cons, h]

theorem sumF_dadd (m : QMap WPair) (e fk : Token) (d : ℚ) (f : Token) :
    sumF (dadd m (e, fk) d) f = sumF m f + (if fk = f then d else 0) := by
  induction m with
  | nil =>
    show sumF [((e, fk), 0 + d)] f = _
    by_cases h : fk = f <;> simp [sumF_cons, sumF_nil, h]
  | cons p rest ih =>
    by_cases hp : p.1 = (e, fk)
    · have h1 : dadd (p :: rest) (e, fk) d = ((e, fk), p.2 + d) :: rest := by
        simp [dadd, dget, aset, alookup, hp]
      rw [h1, sumF_cons, sumF_cons]
      have hpf : p.1.2 = fk := by rw [hp]
      by_cases h : fk = f
      · rw [if_pos h, if_pos (by rw [hpf, h]), if_pos (show ("", fk).2 = f from h)]
        ring
      · rw [if_neg h, if_neg (by rw [hpf]; exact h), if_neg (show ¬ ("", fk).2 = f from h)]
        ring
    · have h1 : dadd (p :: rest) (e, fk) d = p :: dadd rest (e, fk) d := by
        simp [dadd, dget, aset, alookup, hp]
      rw [h1, sumF_cons, sumF_cons, ih]
      ring

theorem sumF_pos (m : QMap WPair) (f : Token) (kv : WPair × ℚ)
    (hmem : kv ∈ m) (hf : kv.1.2 = f) (hpos : ∀ kv ∈ m, 0 < kv.2) :
    0 < sumF m f := by
  unfold sumF
  apply List.sum_pos
  · intro x hx
    rw [List.mem_map] at hx
    obtain ⟨kv2, hkv2, rfl⟩ := hx
    exact hpos kv2 (List.mem_filter.mp hkv2).1
  · simp only [ne_eq, List.map_eq_nil_iff]
    intro hcon
    have hin : kv ∈ m.filter (fun kv => decide (kv.1.2 = f)) :=
      List.mem_filter.mpr ⟨hmem, by simp [hf]⟩
    rw [hcon] at hin
    simp at hin

/-! Lemmas about the probability-table operations. -/

theorem getItem_fst (t : Table) (p : WPair) :
    (Table.getItem t p).1 = Table.getVal t p := by
  unfold Table.getItem Table.getVal
  cases alookup t.entries p <;> simp

theorem getItem_dflt (t : Table) (p : WPair) :
    (Table.getItem t p).2.dflt = t.dflt := by
  unfold Table.getItem
  cases alookup t.entries p <;> simp

theorem getVal_pos (t : Table) (p : WPair) (h : TablePos t) :
    0 < Table.getVal t p := by
  unfold Table.getVal
  cases hl : alookup t.entries p with
  | none => simpa using h.1
  | some v => simpa using h.2 _ (alookup_mem t.entries p v hl)

theorem getItem_fst_pos (t : Table) (p : WPair) (h : TablePos t) :
    0 < (Table.getItem t p).1 := by
  rw [getItem_fst]
  exact getVal_pos t p h

theorem getItem_tablePos (t : Table) (p : WPair) (h : TablePos t) :
    TablePos (Table.getItem t p).2 := by
  unfold Table.getItem
  cases hl : alookup t.entries p with
  | some v => simpa using h
  | none =>
    refine ⟨by simpa using h.1, ?_⟩
    intro kv hkv
    simp only at hkv
    rcases mem_aset _ _ _ kv hkv with h2 | h2
    · exact h.2 kv h2
    · rw [h2]; exact h.1

theorem getItem_keys (t : Table) (p : WPair) (k : WPair)
    (h : k ∈ akeys (Table.getItem t p).2.entries) :
    k ∈ akeys t.entries ∨ k = p := by
  unfold Table.getItem at h
  cases hl : alookup t.entries p with
  | some v => rw [hl] at h; exact Or.inl h
  | none =>
    rw [hl] at h
    simp only at h
    exact (mem_akeys_aset t.entries p t.dflt k).mp h

theorem getItem_nodup (t : Table) (p : WPair)
    (h : (akeys t.entries).Nodup) :
    (akeys (Table.getItem t p).2.entries).Nodup := by
  unfold Table.getItem
  cases hl : alookup t.entries p with
  | some v => simpa using h
  | none => simpa using nodup_akeys_aset t.entries p t.dflt h

theorem setItem_dflt (t : Table) (p : WPair) (v : ℚ) :
    (Table.setItem t p v).dflt = t.dflt := rfl

theorem setItem_lookup (t : Table) (p : WPair) (v : ℚ) (k : WPair) :
    alookup (Table.setItem t p v).entries k
      = if p = k then some v else alookup t.entries k := by
  unfold Table.setItem
  exact alookup_aset t.entries p v k

theorem setItem_keys (t : Table) (p : WPair) (v : ℚ) (k : WPair) :
    k ∈ akeys (Table.setItem t p v).entries ↔ k ∈ akeys t.entries ∨ k = p := by
  unfold Table.setItem
  exact mem_akeys_aset t.entries p v k

theorem setItem_nodup (t : Table) (p : WPair) (v : ℚ)
    (h : (akeys t.entries).Nodup) :
    (akeys (Table.setItem t p v).entries).Nodup :=
  nodup_akeys_aset t.entries p v h

theorem setItem_tablePos (t : Table) (p : WPair) (v : ℚ)
    (ht : TablePos t) (hv : 0 < v) : TablePos (Table.setItem t p v) := by
  refine ⟨ht.1, ?_⟩
  intro kv hkv
  rcases mem_aset _ _ _ kv hkv with h2 | h2
  · exact ht.2 kv h2
  · rw [h2]; exact hv

/-! Lemmas about the first inner loop pair (`sentence_total` accumulation). -/

theorem totalPassF_nil (e : Token) (b : Table × QMap Token) :
    totalPassF e [] b = b := rfl

theorem totalPassF_cons (e f : Token) (F : Sentence) (b : Table × QMap Token) :
    totalPassF e (f :: F) b
      = totalPassF e F
          ((Table.getItem b.1 (e, f)).2, dadd b.2 e (Table.getItem b.1 (e, f)).1) := rfl

theorem totalPass_nil (F : Sentence) (acc : Table × QMap Token) :
    totalPass F acc [] = acc := rfl

theorem totalPass_cons (F : Sentence) (e : Token) (E : Sentence)
    (acc : Table × QMap Token) :
    totalPass F acc (e :: E) = totalPass F (totalPassF e F acc) E := rfl

theorem totalPassF_struct (e : Token) (F : Sentence) (b : Table × QMap Token) :
    (totalPassF e F b).1.dflt = b.1.dflt ∧
    (∀ k, k ∈ akeys (totalPassF e F b).1.entries →
      k ∈ akeys b.1.entries ∨ (k.1 = e ∧ k.2 ∈ F)) ∧
    ((akeys b.1.entries).Nodup → (akeys (totalPassF e F b).1.entries).Nodup) := by
  induction F generalizing b with
  | nil => exact ⟨rfl, fun k h => Or.inl h, id⟩
  | cons f F' ih =>
    rw [totalPassF_cons]
    obtain ⟨i1, i2, i3⟩ :=
      ih ((Table.getItem b.1 (e, f)).2, dadd b.2 e (Table.getItem b.1 (e, f)).1)
    refine ⟨?_, ?_, ?_⟩
    · rw [i1]; exact getItem_dflt b.1 (e, f)
    · intro k hk
      rcases i2 k hk with h | h
      · rcases getItem_keys b.1 (e, f) k h with h2 | h2
        · exact Or.inl h2
        · exact Or.inr ⟨by rw [h2], by rw [h2]; exact List.mem_cons_self _ _⟩
      · exact Or.inr ⟨h.1, List.mem_cons_of_mem _ h.2⟩
    · exact fun h => i3 (getItem_nodup b.1 (e, f) h)

theorem totalPassF_num (e : Token) (F : Sentence) (b : Table × QMap Token)
    (hb : TablePos b.1) :
    TablePos (totalPassF e F b).1 ∧
    (∀ x, dget b.2 x ≤ dget (totalPassF e F b).2 x) ∧
    (F ≠ [] → dget b.2 e < dget (totalPassF e F b).2 e) := by
  induction F generalizing b with
  | nil => exact ⟨hb, fun x => le_refl _, fun h => absurd rfl h⟩
  | cons f F' ih =>
    rw [totalPassF_cons]
    have hval : 0 < (Table.getItem b.1 (e, f)).1 := getItem_fst_pos b.1 (e, f) hb
    obtain ⟨n1, n2, n3⟩ :=
      ih ((Table.getItem b.1 (e, f)).2, dadd b.2 e (Table.getItem b.1 (e, f)).1)
        (getItem_tablePos b.1 (e, f) hb)
    refine ⟨n1, ?_, ?_⟩
    · intro x
      exact le_trans (dget_dadd_mono b.2 e _ (le_of_lt hval) x) (n2 x)
    · intro hne
      have h1 : dget b.2 e < dget (dadd b.2 e (Table.getItem b.1 (e, f)).1) e := by
        rw [dget_dadd_self]; linarith
      exact lt_of_lt_of_le h1 (n2 e)

theorem totalPass_struct (F E : Sentence) (acc : Table × QMap Token) :
    (totalPass F acc E).1.dflt = acc.1.dflt ∧
    (∀ k, k ∈ akeys (totalPass F acc E).1.entries →
      k ∈ akeys acc.1.entries ∨ (k.1 ∈ E ∧ k.2 ∈ F)) ∧
    ((akeys acc.1.entries).Nodup → (akeys (totalPass F acc E).1.entries).Nodup) := by
  induction E generalizing acc with
  | nil => exact ⟨rfl, fun k h => Or.inl h, id⟩
  | cons e E' ih =>
    rw [totalPass_cons]
    obtain ⟨m1, m2, m3⟩ := totalPassF_struct e F acc
    obtain ⟨i1, i2, i3⟩ := ih (totalPassF e F acc)
    refine ⟨by rw [i1, m1], ?_, fun h => i3 (m3 h)⟩
    intro k hk
    rcases i2 k hk with h | h
    · rcases m2 k h with h2 | h2
      · exact Or.inl h2
      · exact Or.inr ⟨h2.1 ▸ List.mem_cons_self _ _, h2.2⟩
    · exact Or.inr ⟨List.mem_cons_of_mem _ h.1, h.2⟩

theorem totalPass_num (F E : Sentence) (acc : Table × QMap Token)
    (hb : TablePos acc.1) (hst : ∀ x, 0 ≤ dget acc.2 x) :
    TablePos (totalPass F acc E).1 ∧
    (∀ x, dget acc.2 x ≤ dget (totalPass F acc E).2 x) ∧
    (∀ x, 0 ≤ dget (totalPass F acc E).2 x) ∧
    (F ≠ [] → ∀ e ∈ E, 0 < dget (totalPass F acc E).2 e) := by
  induction E generalizing acc with
  | nil => exact ⟨hb, fun x => le_refl _, hst, by simp⟩
  | cons e E' ih =>
    rw [totalPass_cons]
    obtain ⟨m1, m2, m3⟩ := totalPassF_num e F acc hb
    have hst' : ∀ x, 0 ≤ dget (totalPassF e F acc).2 x :=
      fun x => le_trans (hst x) (m2 x)
    obtain ⟨n1, n2, n3, n4⟩ := ih (totalPassF e F acc) m1 hst'
    refine ⟨n1, fun x => le_trans (m2 x) (n2 x), n3, ?_⟩
    intro hF e' he'
    rcases List.mem_cons.mp he' with rfl | he'
    · exact lt_of_lt_of_le (lt_of_le_of_lt (hst e') (m3 hF)) (n2 e')
    · exact n4 hF e' he'

/-! Lemmas about the second inner loop pair (evidence accumulation). -/

theorem evidencePassF_cons (st : QMap Token) (e f : Token) (F : Sentence)
    (b : Table × QMap WPair × QMap Token) :
    evidencePassF st e (f :: F) b
      = evidencePassF st e F
          ((Table.getItem b.1 (e, f)).2,
           dadd b.2.1 (e, f) ((Table.getItem b.1 (e, f)).1 / dget st e),
           dadd b.2.2 f ((Table.getItem b.1 (e, f)).1 / dget st e)) := rfl

theorem evidencePassFC_cons (st : QMap Token) (e f : Token) (F : Sentence)
    (b : Table × QMap WPair × QMap Token) (h : dget st e ≠ 0) :
    evidencePassFC st e (f :: F) b
      = evidencePassFC st e F
          ((Table.getItem b.1 (e, f)).2,
           dadd b.2.1 (e, f) ((Table.getItem b.1 (e, f)).1 / dget st e),
           dadd b.2.2 f ((Table.getItem b.1 (e, f)).1 / dget st e)) := by
  simp only [evidencePassFC, List.foldlM_cons]
  simp [h]

theorem evidencePassFC_eq (st : QMap Token) (e : Token) (F : Sentence)
    (b : Table × QMap WPair × QMap Token) (h : dget st e ≠ 0) :
    evidencePassFC st e F b = some (evidencePassF st e F b) := by
  induction F generalizing b with
  | nil => rfl
  | cons f F' ih => rw [evidencePassFC_cons st e f F' b h, evidencePassF_cons, ih]

theorem evidencePassF_struct (st : QMap Token) (e : Token) (F : Sentence)
    (b : Table × QMap WPair × QMap Token) :
    (evidencePassF st e F b).1.dflt = b.1.dflt ∧
    (∀ k, k ∈ akeys (evidencePassF st e F b).1.entries →
      k ∈ akeys b.1.entries ∨ (k.1 = e ∧ k.2 ∈ F)) ∧
    ((akeys b.1.entries).Nodup → (akeys (evidencePassF st e F b).1.entries).Nodup) ∧
    (∀ k, k ∈ akeys (evidencePassF st e F b).2.1 ↔
      k ∈ akeys b.2.1 ∨ (k.1 = e ∧ k.2 ∈ F)) ∧
    ((akeys b.2.1).Nodup → (akeys (evidencePassF st e F b).2.1).Nodup) := by
  induction F generalizing b with
  | nil =>
    exact ⟨rfl, fun k h => Or.inl h, id,
      fun k => by simp [show evidencePassF st e [] b = b from rfl], id⟩
  | cons f F' ih =>
    rw [evidencePassF_cons]
    obtain ⟨i1, i2, i3, i4, i5⟩ :=
      ih ((Table.getItem b.1 (e, f)).2,
          dadd b.2.1 (e, f) ((Table.getItem b.1 (e, f)).1 / dget st e),
          dadd b.2.2 f ((Table.getItem b.1 (e, f)).1 / dget st e))
    refine ⟨?_, ?_, ?_, ?_, ?_⟩
    · rw [i1]; exact getItem_dflt b.1 (e, f)
    · intro k hk
      rcases i2 k hk with h | h
      · rcases getItem_keys b.1 (e, f) k h with h2 | h2
        · exact Or.inl h2
        · exact Or.inr ⟨by rw [h2], by rw [h2]; exact List.mem_cons_self _ _⟩
      · exact Or.inr ⟨h.1, List.mem_cons_of_mem _ h.2⟩
    · exact fun h => i3 (getItem_nodup b.1 (e, f) h)
    · intro k
      rw [i4 k, mem_akeys_dadd]
      constructor
      · rintro ((h | rfl) | h)
        · exact Or.inl h
        · exact Or.inr ⟨rfl, List.mem_cons_self _ _⟩
        · exact Or.inr ⟨h.1, List.mem_cons_of_mem _ h.2⟩
      · rintro (h | ⟨h1, h2⟩)
        · exact Or.inl (Or.inl h)
        · rcases List.mem_cons.mp h2 with h2 | h2
          · refine Or.inl (Or.inr ?_)
            obtain ⟨a, b2⟩ := k
            simp only at h1 h2
            rw [h1, h2]
          · exact Or.inr ⟨h1, h2⟩
    · exact fun h => i5 (nodup_akeys_dadd _ _ _ h)

theorem evidencePassF_num (st : QMap Token) (e : Token) (F : Sentence)
    (b : Table × QMap WPair × QMap Token)
    (hb : TablePos b.1) (hst : 0 < dget st e) :
    TablePos (evidencePassF st e F b).1 ∧
    ((∀ kv ∈ b.2.1, 0 < kv.2) → ∀ kv ∈ (evidencePassF st e F b).2.1, 0 < kv.2) ∧
    ((∀ f', dget b.2.2 f' = sumF b.2.1 f') →
      ∀ f', dget (evidencePassF st e F b).2.2 f'
        = sumF (evidencePassF st e F b).2.1 f') := by
  induction F generalizing b with
  | nil => exact ⟨hb, fun h => h, fun h => h⟩
  | cons f F' ih =>
    rw [evidencePassF_cons]
    have hval : 0 < (Table.getItem b.1 (e, f)).1 := getItem_fst_pos b.1 (e, f) hb
    have hd : 0 < (Table.getItem b.1 (e, f)).1 / dget st e := div_pos hval hst
    obtain ⟨n1, n2, n3⟩ :=
      ih ((Table.getItem b.1 (e, f)).2,
          dadd b.2.1 (e, f) ((Table.getItem b.1 (e, f)).1 / dget st e),
          dadd b.2.2 f ((Table.getItem b.1 (e, f)).1 / dget st e))
        (getItem_tablePos b.1 (e, f) hb)
    refine ⟨n1, ?_, ?_⟩
    · intro hc
      exact n2 (dadd_pos _ _ _ hc hd)
    · intro hm
      apply n3
      intro f'
      rw [dget_dadd, sumF_dadd, hm f']
      by_cases hf : f = f' <;> simp [hf]

theorem evidencePass_nil (F : Sentence) (st : QMap Token)
    (acc : Table × QMap WPair × QMap Token) :
    evidencePass F st acc [] = acc := rfl

theorem evidencePass_cons (F : Sentence) (st : QMap Token) (e : Token)
    (E : Sentence) (acc : Table × QMap WPair × QMap Token) :
    evidencePass F st acc (e :: E) = evidencePass F st (evidencePassF st e F acc) E := rfl

theorem evidencePassC_eq (F : Sentence) (st : QMap Token)
    (acc : Table × QMap WPair × QMap Token) (E : Sentence)
    (h : ∀ e ∈ E, dget st e ≠ 0) :
    evidencePassC F st acc E = some (evidencePass F st acc E) := by
  induction E generalizing acc with
  | nil => rfl
  | cons e E' ih =>
    have h1 : dget st e ≠ 0 := h e (List.mem_cons_self _ _)
    calc evidencePassC F st acc (e :: E')
        = (evidencePassFC st e F acc).bind
            (fun a => evidencePassC F st a E') := by
          simp only [evidencePassC, List.foldlM_cons]
          rfl
      _ = evidencePassC F st (evidencePassF st e F acc) E' := by
          rw [evidencePassFC_eq st e F acc h1]
          rfl
      _ = some (evidencePass F st (evidencePassF st e F acc) E') :=
          ih _ (fun e' he' => h e' (List.mem_cons_of_mem _ he'))
      _ = some (evidencePass F st acc (e :: E')) := by rw [evidencePass_cons]

theorem evidencePass_struct (F : Sentence) (st : QMap Token) (E : Sentence)
    (acc : Table × QMap WPair × QMap Token) :
    (evidencePass F st acc E).1.dflt = acc.1.dflt ∧
    (∀ k, k ∈ akeys (evidencePass F st acc E).1.entries →
      k ∈ akeys acc.1.entries ∨ (k.1 ∈ E ∧ k.2 ∈ F)) ∧
    ((akeys acc.1.entries).Nodup → (akeys (evidencePass F st acc E).1.entries).Nodup) ∧
    (∀ k, k ∈ akeys (evidencePass F st acc E).2.1 ↔
      k ∈ akeys acc.2.1 ∨ (k.1 ∈ E ∧ k.2 ∈ F)) ∧
    ((akeys acc.2.1).Nodup → (akeys (evidencePass F st acc E).2.1).Nodup) := by
  induction E generalizing acc with
  | nil =>
    exact ⟨rfl, fun k h => Or.inl h, id,
      fun k => by simp [show evidencePass F st acc [] = acc from rfl], id⟩
  | cons e E' ih =>
    rw [evidencePass_cons]
    obtain ⟨m1, m2, m3, m4, m5⟩ := evidencePassF_struct st e F acc
    obtain ⟨i1, i2, i3, i4, i5⟩ := ih (evidencePassF st e F acc)
    refine ⟨by rw [i1, m1], ?_, fun h => i3 (m3 h), ?_, fun h => i5 (m5 h)⟩
    · intro k hk
      rcases i2 k hk with h | h
      · rcases m2 k h with h2 | h2
        · exact Or.inl h2
        · exact Or.inr ⟨h2.1 ▸ List.mem_cons_self _ _, h2.2⟩
      · exact Or.inr ⟨List.mem_cons_of_mem _ h.1, h.2⟩
    · intro k
      rw [i4 k, m4 k]
      constructor
      · rintro ((h | h) | h)
        · exact Or.inl h
        · exact Or.inr ⟨h.1 ▸ List.mem_cons_self _ _, h.2⟩
        · exact Or.inr ⟨List.mem_cons_of_mem _ h.1, h.2⟩
      · rintro (h | ⟨h1, h2⟩)
        · exact Or.inl (Or.inl h)
        · rcases List.mem_cons.mp h1 with h1 | h1
          · exact Or.inl (Or.inr ⟨h1, h2⟩)
          · exact Or.inr ⟨h1, h2⟩

theorem evidencePass_num (F : Sentence) (st : QMap Token) (E : Sentence)
    (acc : Table × QMap WPair × QMap Token)
    (hb : TablePos acc.1) (hst : ∀ e ∈ E, 0 < dget st e) :
    TablePos (evidencePass F st acc E).1 ∧
    ((∀ kv ∈ acc.2.1, 0 < kv.2) → ∀ kv ∈ (evidencePass F st acc E).2.1, 0 < kv.2) ∧
    ((∀ f', dget acc.2.2 f' = sumF acc.2.1 f') →
      ∀ f', dget (evidencePass F st acc E).2.2 f'
        = sumF (evidencePass F st acc E).2.1 f') := by
  induction E generalizing acc with
  | nil => exact ⟨hb, fun h => h, fun h => h⟩
  | cons e E' ih =>
    rw [evidencePass_cons]
    have h1 : 0 < dget st e := hst e (List.mem_cons_self _ _)
    obtain ⟨m1, m2, m3⟩ := evidencePassF_num st e F acc hb h1
    obtain ⟨n1, n2, n3⟩ :=
      ih (evidencePassF st e F acc) m1
        (fun e' he' => hst e' (List.mem_cons_of_mem _ he'))
    exact ⟨n1, fun hc => n2 (m2 hc), fun hm => n3 (m3 hm)⟩

/-! Lemmas about the per-iteration E-step fold and the M-step. -/

theorem coPairs_nil : coPairs [] = [] := rfl

theorem coPairs_cons (pr : Sentence × Sentence) (rest : Corpus) :
    coPairs (pr :: rest)
      = pr.1.flatMap (fun e => pr.2.map (fun f => (e, f))) ++ coPairs rest := by
  simp [coPairs]

theorem mem_sentPairs (E F : Sentence) (k : WPair) :
    k ∈ E.flatMap (fun e => F.map (fun f => (e, f))) ↔ k.1 ∈ E ∧ k.2 ∈ F := by
  obtain ⟨a, b⟩ := k
  simp

theorem eStepGo_struct (s : EState) (pr : Sentence × Sentence) :
    (eStepGo s pr).table.dflt = s.table.dflt ∧
    (∀ k, k ∈ akeys (eStepGo s pr).table.entries →
      k ∈ akeys s.table.entries ∨ (k.1 ∈ pr.1 ∧ k.2 ∈ pr.2)) ∧
    ((akeys s.table.entries).Nodup → (akeys (eStepGo s pr).table.entries).Nodup) ∧
    (∀ k, k ∈ akeys (eStepGo s pr).count ↔
      k ∈ akeys s.count ∨ (k.1 ∈ pr.1 ∧ k.2 ∈ pr.2)) ∧
    ((akeys s.count).Nodup → (akeys (eStepGo s pr).count).Nodup) := by
  obtain ⟨t1, t2, t3⟩ := totalPass_struct pr.2 pr.1 (s.table, s.st)
  obtain ⟨e1, e2, e3, e4, e5⟩ :=
    evidencePass_struct pr.2 (totalPass pr.2 (s.table, s.st) pr.1).2 pr.1
      ((totalPass pr.2 (s.table, s.st) pr.1).1, s.count, s.total)
  refine ⟨by rw [show (eStepGo s pr).table.dflt = _ from e1]; exact t1, ?_, ?_, ?_, ?_⟩
  · intro k hk
    rcases e2 k hk with h | h
    · rcases t2 k h with h2 | h2
      · exact Or.inl h2
      · exact Or.inr h2
    · exact Or.inr h
  · exact fun h => e3 (t3 h)
  · exact fun k => e4 k
  · exact fun h => e5 h

theorem eStepGo_num (s : EState) (pr : Sentence × Sentence)
    (hpr : pr.1 ≠ [] ∧ pr.2 ≠ []) (hInv : EInv s) :
    EInv (eStepGo s pr) ∧ eStepGoC s pr = some (eStepGo s pr) := by
  obtain ⟨h1, h2, h3, h4⟩ := hInv
  obtain ⟨t1, t2, t3, t4⟩ := totalPass_num pr.2 pr.1 (s.table, s.st) h1 h2
  have hstpos : ∀ e ∈ pr.1, 0 < dget (totalPass pr.2 (s.table, s.st) pr.1).2 e :=
    t4 hpr.2
  obtain ⟨e1, e2, e3⟩ :=
    evidencePass_num pr.2 (totalPass pr.2 (s.table, s.st) pr.1).2 pr.1
      ((totalPass pr.2 (s.table, s.st) pr.1).1, s.count, s.total) t1 hstpos
  refine ⟨⟨e1, t3, e2 h3, e3 h4⟩, ?_⟩
  have hC := evidencePassC_eq pr.2 (totalPass pr.2 (s.table, s.st) pr.1).2
      ((totalPass pr.2 (s.table, s.st) pr.1).1, s.count, s.total) pr.1
      (fun e he => ne_of_gt (hstpos e he))
  simp only [eStepGoC]
  rw [hC]
  rfl

theorem eStep_fold_struct (corpusL : List (Sentence × Sentence)) (s : EState) :
    (corpusL.foldl eStepGo s).table.dflt = s.table.dflt ∧
    (∀ k, k ∈ akeys (corpusL.foldl eStepGo s).table.entries →
      k ∈ akeys s.table.entries ∨ k ∈ coPairs corpusL) ∧
    ((akeys s.table.entries).Nodup →
      (akeys (corpusL.foldl eStepGo s).table.entries).Nodup) ∧
    (∀ k, k ∈ akeys (corpusL.foldl eStepGo s).count ↔
      k ∈ akeys s.count ∨ k ∈ coPairs corpusL) ∧
    ((akeys s.count).Nodup → (akeys (corpusL.foldl eStepGo s).count).Nodup) := by
  induction corpusL generalizing s with
  | nil =>
    exact ⟨rfl, fun k h => Or.inl h, id, fun k => by simp [coPairs_nil], id⟩
  | cons pr rest ih =>
    rw [List.foldl_cons]
    obtain ⟨m1, m2, m3, m4, m5⟩ := eStepGo_struct s pr
    obtain ⟨i1, i2, i3, i4, i5⟩ := ih (eStepGo s pr)
    refine ⟨by rw [i1, m1], ?_, fun h => i3 (m3 h), ?_, fun h => i5 (m5 h)⟩
    · intro k hk
      rcases i2 k hk with h | h
      · rcases m2 k h with h2 | h2
        · exact Or.inl h2
        · refine Or.inr ?_
          rw [coPairs_cons]
          exact List.mem_append_left _ ((mem_sentPairs pr.1 pr.2 k).mpr h2)
      · refine Or.inr ?_
        rw [coPairs_cons]
        exact List.mem_append_right _ h
    · intro k
      rw [i4 k, m4 k, coPairs_cons, List.mem_append, mem_sentPairs]
      tauto

theorem eStep_fold_num (corpusL : List (Sentence × Sentence)) (s : EState)
    (hWF : ∀ pr ∈ corpusL, pr.1 ≠ [] ∧ pr.2 ≠ []) (hInv : EInv s) :
    EInv (corpusL.foldl eStepGo s) ∧
    corpusL.foldlM eStepGoC s = some (corpusL.foldl eStepGo s) := by
  induction corpusL generalizing s with
  | nil => exact ⟨hInv, rfl⟩
  | cons pr rest ih =>
    rw [List.foldl_cons]
    obtain ⟨m1, m2⟩ := eStepGo_num s pr (hWF pr (List.mem_cons_self _ _)) hInv
    obtain ⟨i1, i2⟩ := ih (eStepGo s pr)
      (fun pr' h => hWF pr' (List.mem_cons_of_mem _ h)) m1
    refine ⟨i1, ?_⟩
    rw [List.foldlM_cons, m2]
    simpa using i2

theorem eStep_struct (corpus : Corpus) (t : Table) :
    (eStep corpus t).table.dflt = t.dflt ∧
    (∀ k, k ∈ akeys (eStep corpus t).table.entries →
      k ∈ akeys t.entries ∨ k ∈ coPairs corpus) ∧
    ((akeys t.entries).Nodup → (akeys (eStep corpus t).table.entries).Nodup) ∧
    (∀ k, k ∈ akeys (eStep corpus t).count ↔ k ∈ coPairs corpus) ∧
    (akeys (eStep corpus t).count).Nodup := by
  obtain ⟨i1, i2, i3, i4, i5⟩ := eStep_fold_struct corpus ⟨t, [], [], []⟩
  exact ⟨i1, i2, i3, fun k => by simpa [akeys] using i4 k, i5 (by simp [akeys])⟩

theorem eStep_num (corpus : Corpus) (t : Table)
    (hWF : WFCorpus corpus) (ht : TablePos t) :
    EInv (eStep corpus t) ∧ eStepC corpus t = some (eStep corpus t) := by
  refine eStep_fold_num corpus ⟨t, [], [], []⟩ hWF ⟨ht, ?_, ?_, ?_⟩
  · intro x; simp [dget, alookup]
  · intro kv h; simp at h
  · intro f; simp [dget, alookup, sumF_nil]

theorem mStep_fold_vals (count : QMap WPair) (total : QMap Token)
    (l : QMap WPair) (t : Table) (hnd : (akeys l).Nodup) :
    (∀ kv ∈ l, alookup (l.foldl (mStepGo count total) t).entries kv.1
       = some (dget count kv.1 / dget total kv.1.2)) ∧
    (∀ k, k ∉ akeys l → alookup (l.foldl (mStepGo count total) t).entries k
       = alookup t.entries k) := by
  induction l generalizing t with
  | nil => exact ⟨by simp, fun k h => rfl⟩
  | cons kv0 l ih =>
    rw [List.foldl_cons]
    have hnd2 := List.nodup_cons.mp (by rwa [akeys_cons] at hnd)
    obtain ⟨i1, i2⟩ := ih (mStepGo count total t kv0) hnd2.2
    constructor
    · intro kv hkv
      rcases List.mem_cons.mp hkv with rfl | hkv
      · rw [i2 kv.1 hnd2.1]
        unfold mStepGo
        rw [setItem_lookup, if_pos rfl]
      · exact i1 kv hkv
    · intro k hk
      rw [akeys_cons] at hk
      have hk0 : k ∉ akeys l := fun h => hk (List.mem_cons_of_mem _ h)
      have hkne : kv0.1 ≠ k := fun h => hk (h ▸ List.mem_cons_self _ _)
      rw [i2 k hk0]
      unfold mStepGo
      rw [setItem_lookup, if_neg hkne]

theorem mStep_fold_keys (count : QMap WPair) (total : QMap Token)
    (l : QMap WPair) (t : Table) :
    (∀ k, k ∈ akeys (l.foldl (mStepGo count total) t).entries ↔
      k ∈ akeys t.entries ∨ k ∈ akeys l) ∧
    ((akeys t.entries).Nodup → (akeys (l.foldl (mStepGo count total) t).entries).Nodup) ∧
    (l.foldl (mStepGo count total) t).dflt = t.dflt := by
  induction l generalizing t with
  | nil => exact ⟨fun k => by simp [akeys_nil], id, rfl⟩
  | cons kv0 l ih =>
    rw [List.foldl_cons]
    obtain ⟨i1, i2, i3⟩ := ih (mStepGo count total t kv0)
    refine ⟨?_, ?_, ?_⟩
    · intro k
      rw [i1 k, akeys_cons]
      unfold mStepGo
      rw [setItem_keys]
      simp [List.mem_cons]
      tauto
    · intro h
      exact i2 (setItem_nodup t _ _ h)
    · rw [i3]; rfl

theorem mStep_fold_pos (count : QMap WPair) (total : QMap Token)
    (l : QMap WPair) (t : Table) (ht : TablePos t)
    (hv : ∀ kv ∈ l, 0 < dget count kv.1 / dget total kv.1.2) :
    TablePos (l.foldl (mStepGo count total) t) := by
  induction l generalizing t with
  | nil => exact ht
  | cons kv0 l ih =>
    rw [List.foldl_cons]
    exact ih (mStepGo count total t kv0)
      (setItem_tablePos t _ _ ht (hv kv0 (List.mem_cons_self _ _)))
      (fun kv h => hv kv (List.mem_cons_of_mem _ h))

theorem mStepC_fold_eq (count : QMap WPair) (total : QMap Token)
    (l : QMap WPair) (t : Table)
    (h : ∀ kv ∈ l, dget total kv.1.2 ≠ 0) :
    l.foldlM (mStepGoC count total) t = some (l.foldl (mStepGo count total) t) := by
  induction l generalizing t with
  | nil => rfl
  | cons kv0 l ih =>
    rw [List.foldlM_cons, List.foldl_cons]
    have h0 : dget total kv0.1.2 ≠ 0 := h kv0 (List.mem_cons_self _ _)
    have : mStepGoC count total t kv0 = some (mStepGo count total t kv0) := by
      unfold mStepGoC mStepGo
      rw [if_neg h0]
    rw [this]
    simpa using ih (mStepGo count total t kv0) (fun kv hm => h kv (List.mem_cons_of_mem _ hm))

/-! Lemmas about one full EM iteration and the iterated trainer. -/

theorem trainStep_struct (corpus : Corpus) (t : Table) :
    (trainStep corpus t).dflt = t.dflt ∧
    (∀ k, k ∈ akeys (trainStep corpus t).entries →
      k ∈ akeys t.entries ∨ k ∈ coPairs corpus) ∧
    ((akeys t.entries).Nodup → (akeys (trainStep corpus t).entries).Nodup) := by
  obtain ⟨s1, s2, s3, s4, s5⟩ := eStep_struct corpus t
  obtain ⟨k1, k2, k3⟩ :=
    mStep_fold_keys (eStep corpus t).count (eStep corpus t).total
      (eStep corpus t).count (eStep corpus t).table
  refine ⟨by rw [show (trainStep corpus t).dflt = _ from k3, s1], ?_, ?_⟩
  · intro k hk
    rcases (k1 k).mp hk with h | h
    · exact s2 k h
    · exact Or.inr ((s4 k).mp h)
  · intro h
    exact k2 (s3 h)

theorem trainStep_num (corpus : Corpus) (t : Table)
    (hWF : WFCorpus corpus) (ht : TablePos t) :
    TablePos (trainStep corpus t) ∧ trainStepC corpus t = some (trainStep corpus t) := by
  obtain ⟨⟨p1, p2, p3, p4⟩, hbridge⟩ := eStep_num corpus t hWF ht
  have hv : ∀ kv ∈ (eStep corpus t).count,
      0 < dget (eStep corpus t).count kv.1 / dget (eStep corpus t).total kv.1.2 := by
    intro kv hkv
    have hc : 0 < dget (eStep corpus t).count kv.1 :=
      dget_pos_of_mem (eStep corpus t).count kv p3 hkv
    have htot : 0 < dget (eStep corpus t).total kv.1.2 := by
      rw [p4 kv.1.2]
      exact sumF_pos (eStep corpus t).count kv.1.2 kv hkv rfl p3
    exact div_pos hc htot
  constructor
  · exact mStep_fold_pos _ _ _ _ p1 hv
  · unfold trainStepC
    rw [hbridge]
    have := mStepC_fold_eq (eStep corpus t).count (eStep corpus t).total
      (eStep corpus t).count (eStep corpus t).table
      (fun kv hkv => ne_of_gt (by
        rw [p4 kv.1.2]
        exact sumF_pos (eStep corpus t).count kv.1.2 kv hkv rfl p3))
    exact this

theorem train_model_succ (corpus : Corpus) (t : Table) (n : Nat) :
    train_model corpus t (n + 1) = trainStep corpus (train_model corpus t n) := by
  induction n generalizing t with
  | zero => rfl
  | succ n ih =>
    show train_model corpus (trainStep corpus t) (n + 1) = _
    rw [ih (trainStep corpus t)]
    rfl

theorem train_model_struct (corpus : Corpus) (t : Table) (n : Nat) :
    (train_model corpus t n).dflt = t.dflt ∧
    (∀ k, k ∈ akeys (train_model corpus t n).entries →
      k ∈ akeys t.entries ∨ k ∈ coPairs corpus) ∧
    ((akeys t.entries).Nodup → (akeys (train_model corpus t n).entries).Nodup) := by
  induction n generalizing t with
  | zero => exact ⟨rfl, fun k h => Or.inl h, id⟩
  | succ n ih =>
    obtain ⟨s1, s2, s3⟩ := trainStep_struct corpus t
    obtain ⟨i1, i2, i3⟩ := ih (trainStep corpus t)
    refine ⟨?_, ?_, ?_⟩
    · show (train_model corpus (trainStep corpus t) n).dflt = t.dflt
      rw [i1, s1]
    · intro k hk
      rcases i2 k hk with h | h
      · exact s2 k h
      · exact Or.inr h
    · exact fun h => i3 (s3 h)

theorem train_model_num (corpus : Corpus) (t : Table) (n : Nat)
    (hWF : WFCorpus corpus) (ht : TablePos t) :
    TablePos (train_model corpus t n) ∧
    train_modelC corpus t n = some (train_model corpus t n) := by
  induction n generalizing t with
  | zero => exact ⟨ht, rfl⟩
  | succ n ih =>
    obtain ⟨s1, s2⟩ := trainStep_num corpus t hWF ht
    obtain ⟨i1, i2⟩ := ih (trainStep corpus t) s1
    refine ⟨i1, ?_⟩
    show (trainStepC corpus t).bind _ = _
    rw [s2]
    simpa using i2

/-! Support lemmas for the corpus dictionary, conditional dictionary, and
the row-sum computation. -/

theorem aset_of_not_mem {κ ν : Type} [DecidableEq κ] (m : PDict κ ν)
    (k : κ) (v : ν) (h : k ∉ akeys m) : aset m k v = m ++ [(k, v)] := by
  induction m with
  | nil => rfl
  | cons p rest ih =>
    rw [akeys_cons] at h
    have h1 : ¬ p.1 = k := fun hc => h (hc ▸ List.mem_cons_self _ _)
    have h2 : k ∉ akeys rest := fun hc => h (List.mem_cons_of_mem _ hc)
    simp [aset, h1, ih h2]

theorem cdGet_aset (d : CDict) (k : Token) (L : List (Token × ℚ)) (k' : Token) :
    cdGet (aset d k L) k' = if k = k' then L else cdGet d k' := by
  unfold cdGet
  rw [alookup_aset]
  by_cases h : k = k' <;> simp [h]

theorem cond_dict_fold_mem (l : QMap WPair) (d : CDict) :
    (∀ k x, x ∈ cdGet d k → x ∈ cdGet (l.foldl condStep d) k) ∧
    (∀ kv ∈ l, (kv.1.1, kv.2) ∈ cdGet (l.foldl condStep d) kv.1.2) := by
  induction l generalizing d with
  | nil => exact ⟨fun k x h => h, by simp⟩
  | cons kv0 l ih =>
    rw [List.foldl_cons]
    obtain ⟨i1, i2⟩ := ih (condStep d kv0)
    have hmono : ∀ k x, x ∈ cdGet d k → x ∈ cdGet (condStep d kv0) k := by
      intro k x hx
      unfold condStep
      rw [cdGet_aset]
      by_cases h : kv0.1.2 = k
      · rw [if_pos h]
        rw [← h] at hx
        exact List.mem_append_left _ hx
      · rwa [if_neg h]
    constructor
    · exact fun k x hx => i1 k x (hmono k x hx)
    · intro kv hkv
      rcases List.mem_cons.mp hkv with rfl | hkv
      · apply i1
        unfold condStep
        rw [cdGet_aset, if_pos rfl]
        exact List.mem_append_right _ (List.mem_singleton.mpr rfl)
      · exact i2 kv hkv

theorem initialize_corpus_go (pairs : List (Sentence × Sentence)) (c : Corpus) :
    ((akeys c).Nodup →
      (akeys (pairs.foldl (fun c pr => aset c pr.1 pr.2) c)).Nodup) ∧
    (∀ k, alookup (pairs.foldl (fun c pr => aset c pr.1 pr.2) c) k
       = match lastMatch pairs k with
         | some v => some v
         | none => alookup c k) := by
  induction pairs generalizing c with
  | nil => exact ⟨id, fun k => by simp [lastMatch]⟩
  | cons pr rest ih =>
    rw [List.foldl_cons]
    obtain ⟨i1, i2⟩ := ih (aset c pr.1 pr.2)
    refine ⟨fun h => i1 (nodup_akeys_aset _ _ _ h), ?_⟩
    intro k
    rw [i2 k]
    cases hl : lastMatch rest k with
    | some v => simp [lastMatch, hl]
    | none =>
      rw [alookup_aset]
      by_cases hk : pr.1 = k
      · simp [lastMatch, hl, hk]
      · have hk2 : ¬ k = pr.1 := fun h => hk h.symm
        simp [lastMatch, hl, hk, hk2]

theorem mem_coPairs (corpus : Corpus) (k : WPair) :
    k ∈ coPairs corpus ↔ ∃ pr ∈ corpus, k.1 ∈ pr.1 ∧ k.2 ∈ pr.2 := by
  unfold coPairs
  rw [List.mem_flatMap]
  constructor
  · rintro ⟨pr, hpr, hk⟩
    exact ⟨pr, hpr, (mem_sentPairs pr.1 pr.2 k).mp hk⟩
  · rintro ⟨pr, hpr, hk⟩
    exact ⟨pr, hpr, (mem_sentPairs pr.1 pr.2 k).mpr hk⟩

theorem filter_map_fst (L : QMap WPair) (f : Token) :
    (akeys L).filter (fun k => k.2 = f) = akeys (L.filter (fun kv => kv.1.2 = f)) := by
  induction L with
  | nil => rfl
  | cons kv rest ih =>
    rw [akeys_cons]
    by_cases h : kv.1.2 = f <;>
      simp [List.filter_cons, h, ih, akeys_cons]

theorem sum_map_div {α : Type} (l : List α) (g : α → ℚ) (c : ℚ) :
    (l.map (fun x => g x / c)).sum = (l.map g).sum / c := by
  induction l with
  | nil => simp
  | cons x l ih => simp [ih, add_div]

theorem rowSum_eq_one (L : QMap WPair) (count : QMap WPair) (total : QMap Token)
    (f : Token)
    (hLnd : (akeys L).Nodup) (hCnd : (akeys count).Nodup)
    (hmem : ∀ k, k ∈ akeys L ↔ k ∈ akeys count)
    (hval : ∀ kv ∈ count, alookup L kv.1
      = some (dget count kv.1 / dget total kv.1.2))
    (htot : dget total f = sumF count f)
    (hpos : ∀ kv ∈ count, 0 < kv.2)
    (hex : ∃ kv ∈ count, kv.1.2 = f) :
    ((L.filter (fun kv => kv.1.2 = f)).map (fun kv => kv.2)).sum = 1 := by
  have hvL : ∀ kv ∈ L, kv.2 = dget count kv.1 / dget total kv.1.2 := by
    intro kv hkv
    have h1 : alookup L kv.1 = some kv.2 := alookup_of_nodup L kv hLnd hkv
    have h2 : kv.1 ∈ akeys count :=
      (hmem kv.1).mp ((mem_akeys L kv.1).mpr ⟨kv, hkv, rfl⟩)
    obtain ⟨cv, hcv, hcveq⟩ := (mem_akeys count kv.1).mp h2
    have h3 := hval cv hcv
    rw [hcveq, h1] at h3
    exact (Option.some.injEq _ _).mp h3
  have step2 : ((L.filter (fun kv => kv.1.2 = f)).map (fun kv => kv.2))
      = ((L.filter (fun kv => kv.1.2 = f)).map
          (fun kv => dget count kv.1 / dget total f)) := by
    apply List.map_congr_left
    intro kv hkv
    have hin := List.mem_filter.mp hkv
    have hf : kv.1.2 = f := by simpa using hin.2
    rw [hvL kv hin.1, hf]
  have step3 : ((count.filter (fun kv => kv.1.2 = f)).map
          (fun kv => dget count kv.1 / dget total f))
      = ((count.filter (fun kv => kv.1.2 = f)).map
          (fun kv => kv.2 / dget total f)) := by
    apply List.map_congr_left
    intro kv hkv
    rw [dget_of_nodup count kv hCnd (List.mem_filter.mp hkv).1]
  have hperm : List.Perm (akeys (L.filter (fun kv => kv.1.2 = f)))
      (akeys (count.filter (fun kv => kv.1.2 = f))) := by
    rw [← filter_map_fst, ← filter_map_fst]
    apply (List.perm_ext_iff_of_nodup (hLnd.filter _) (hCnd.filter _)).mpr
    intro k
    rw [List.mem_filter, List.mem_filter, hmem k]
  have hmapped : ((L.filter (fun kv => kv.1.2 = f)).map
          (fun kv => dget count kv.1 / dget total f)).sum
      = ((count.filter (fun kv => kv.1.2 = f)).map
          (fun kv => dget count kv.1 / dget total f)).sum := by
    have h1 : ∀ (M : QMap WPair),
        (M.map (fun kv => dget count kv.1 / dget total f))
          = ((akeys M).map (fun k => dget count k / dget total f)) := by
      intro M
      unfold akeys
      rw [List.map_map]
      rfl
    rw [h1, h1]
    exact (hperm.map _).sum_eq
  have htne : dget total f ≠ 0 := by
    obtain ⟨kv, hkv, hkf⟩ := hex
    rw [htot]
    exact ne_of_gt (sumF_pos count f kv hkv hkf hpos)
  calc ((L.filter (fun kv => kv.1.2 = f)).map (fun kv => kv.2)).sum
      = ((count.filter (fun kv => kv.1.2 = f)).map
          (fun kv => kv.2 / dget total f)).sum := by rw [step2, hmapped, step3]
    _ = ((count.filter (fun kv => kv.1.2 = f)).map (fun kv => kv.2)).sum
          / dget total f := sum_map_div _ _ _
    _ = sumF count f / dget total f := rfl
    _ = 1 := by rw [← htot]; exact div_self htne

/-! The claims. -/

/-- C3: the loaded corpus is a dict keyed by the tokenized English sentence;
when two loaded line pairs have the same English side only the last-read pair
is retained, and the resulting corpus never contains two entries with the
same English key. -/
theorem c3_corpus_last_pair_wins (pairs : List (Sentence × Sentence)) :
    (akeys (initialize_corpus pairs)).Nodup ∧
    (∀ k, alookup (initialize_corpus pairs) k = lastMatch pairs k) := by
  obtain ⟨h1, h2⟩ := initialize_corpus_go pairs []
  refine ⟨h1 (by simp [akeys_nil]), ?_⟩
  intro k
  rw [show initialize_corpus pairs = pairs.foldl (fun c pr => aset c pr.1 pr.2) [] from rfl,
      h2 k]
  cases lastMatch pairs k <;> simp [alookup]

/-- C4: on a well-formed corpus (all sentences non-empty) and a table whose
default and explicit entries are strictly positive, no division of
`train_model` ever divides by zero: the checked run (which returns `none`
exactly when Python would raise `ZeroDivisionError`) agrees with the
unchecked run for every iteration count. -/
theorem c4_no_division_by_zero (corpus : Corpus) (t : Table) (n : Nat)
    (hWF : WFCorpus corpus) (ht : TablePos t) :
    train_modelC corpus t n = some (train_model corpus t n) :=
  (train_model_num corpus t n hWF ht).2

theorem c4_no_division_by_zero_witness :
    WFCorpus toyCorpus ∧ TablePos (initialize_translation_probability toyCorpus) ∧
    train_modelC toyCorpus (initialize_translation_probability toyCorpus) 2
      = some (train_model toyCorpus (initialize_translation_probability toyCorpus) 2) := by
  have hwf : WFCorpus toyCorpus := by unfold WFCorpus; decide
  have htp : TablePos (initialize_translation_probability toyCorpus) := by
    constructor
    · show (0 : ℚ) < 1 / (numFWords toyCorpus : ℚ)
      rw [show numFWords toyCorpus = 2 from by decide]
      norm_num
    · intro kv h
      simp [initialize_translation_probability] at h
  exact ⟨hwf, htp, c4_no_division_by_zero toyCorpus _ 2 hwf htp⟩

/-- C5: a pair (e,f) that never co-occurs in the corpus is never explicitly
set (nor inserted): for every number of training iterations starting from
the freshly initialized table, the stored default stays `1/num_f_words`, the
pair has no explicit entry, and looking its value up yields exactly
`1/num_f_words`. -/
theorem c5_default_value_contract (corpus : Corpus) (n : Nat) (e f : Token)
    (h : (e, f) ∉ coPairs corpus) :
    (train_model corpus (initialize_translation_probability corpus) n).dflt
        = 1 / (numFWords corpus : ℚ) ∧
    alookup (train_model corpus (initialize_translation_probability corpus) n).entries
        (e, f) = none ∧
    Table.getVal (train_model corpus (initialize_translation_probability corpus) n)
        (e, f) = 1 / (numFWords corpus : ℚ) := by
  obtain ⟨s1, s2, s3⟩ :=
    train_model_struct corpus (initialize_translation_probability corpus) n
  have hdflt : (train_model corpus (initialize_translation_probability corpus) n).dflt
      = 1 / (numFWords corpus : ℚ) := by rw [s1]; rfl
  have hnone : alookup
      (train_model corpus (initialize_translation_probability corpus) n).entries
      (e, f) = none := by
    rw [alookup_eq_none]
    intro hc
    rcases s2 (e, f) hc with h2 | h2
    · simp [initialize_translation_probability, akeys] at h2
    · exact h h2
  refine ⟨hdflt, hnone, ?_⟩
  unfold Table.getVal
  rw [hnone, Option.getD_none]
  exact hdflt

theorem c5_default_value_contract_witness :
    (("dog", "dog") ∉ coPairs toyCorpus) ∧
    ((train_model toyCorpus (initialize_translation_probability toyCorpus) 1).dflt
        = 1 / (numFWords toyCorpus : ℚ) ∧
     alookup (train_model toyCorpus
        (initialize_translation_probability toyCorpus) 1).entries
        ("dog", "dog") = none ∧
     Table.getVal (train_model toyCorpus
        (initialize_translation_probability toyCorpus) 1)
        ("dog", "dog") = 1 / (numFWords toyCorpus : ℚ)) :=
  ⟨by decide, c5_default_value_contract toyCorpus 1 "dog" "dog" (by decide)⟩

/-- C7: zero iterations perform no mutation at all: `train_model` with
`iteration_count = 0` returns the very same table (all explicit entries and
the default unchanged). -/
theorem c7_zero_iterations_identity (corpus : Corpus) (t : Table) :
    train_model corpus t 0 = t := rfl

/-- C9: a mere read of a pair (e,f) with no explicit entry returns the
default AND appends that pair as a new explicit entry holding the default
value, so every later enumeration of the table — in particular the one
`cond_dict` performs — includes the pair. -/
theorem c9_lookup_inserts_default (t : Table) (e f : Token)
    (h : alookup t.entries (e, f) = none) :
    (Table.getItem t (e, f)).1 = t.dflt ∧
    (Table.getItem t (e, f)).2.entries = t.entries ++ [((e, f), t.dflt)] ∧
    ((e, f), t.dflt) ∈ (Table.getItem t (e, f)).2.entries ∧
    (e, t.dflt) ∈ cdGet (cond_dict (Table.getItem t (e, f)).2) f := by
  have hnotmem : (e, f) ∉ akeys t.entries := (alookup_eq_none _ _).mp h
  have hent : (Table.getItem t (e, f)).2.entries = t.entries ++ [((e, f), t.dflt)] := by
    unfold Table.getItem
    rw [h]
    exact aset_of_not_mem t.entries (e, f) t.dflt hnotmem
  have hval : (Table.getItem t (e, f)).1 = t.dflt := by
    unfold Table.getItem
    rw [h]
  have hmem : ((e, f), t.dflt) ∈ (Table.getItem t (e, f)).2.entries := by
    rw [hent]
    exact List.mem_append_right _ (List.mem_singleton.mpr rfl)
  refine ⟨hval, hent, hmem, ?_⟩
  exact (cond_dict_fold_mem (Table.getItem t (e, f)).2.entries []).2
    (((e, f), t.dflt)) hmem

theorem c9_lookup_inserts_default_witness :
    alookup (initialize_translation_probability toyCorpus).entries
        ("dog", "perro") = none ∧
    ((Table.getItem (initialize_translation_probability toyCorpus)
        ("dog", "perro")).1 = (initialize_translation_probability toyCorpus).dflt ∧
     (Table.getItem (initialize_translation_probability toyCorpus)
        ("dog", "perro")).2.entries
        = (initialize_translation_probability toyCorpus).entries
          ++ [(("dog", "perro"), (initialize_translation_probability toyCorpus).dflt)] ∧
     (("dog", "perro"), (initialize_translation_probability toyCorpus).dflt)
        ∈ (Table.getItem (initialize_translation_probability toyCorpus)
            ("dog", "perro")).2.entries ∧
     ("dog", (initialize_translation_probability toyCorpus).dflt)
        ∈ cdGet (cond_dict (Table.getItem (initialize_translation_probability toyCorpus)
            ("dog", "perro")).2) "perro") :=
  ⟨rfl, c9_lookup_inserts_default (initialize_translation_probability toyCorpus)
    "dog" "perro" rfl⟩

/-- C10: `get_max` ignores its `cond_dict` parameter entirely — it always
loops over the instance's own `self.conditional_dict` — so its result is
independent of whatever is passed as that argument. -/
theorem c10_get_max_ignores_argument (cd : CDict) (f_word : Token)
    (d1 d2 : CDict) :
    get_max cd f_word d1 = get_max cd f_word d2 := rfl

/-- C2: for a well-formed corpus and the table produced by
`initialize_translation_probability`, after every completed training
iteration the explicit entries with source token f sum to exactly 1 (exact
over ℚ, hence within any floating-point tolerance), for every f occurring in
the corpus. -/
theorem c2_normalization_invariant (corpus : Corpus) (n : Nat) (f : Token)
    (hWF : WFCorpus corpus) (hf : f ∈ corpus.flatMap (fun pr => pr.2)) :
    rowSum (train_model corpus (initialize_translation_probability corpus) (n + 1)) f
      = 1 := by
  set T0 := initialize_translation_probability corpus with hT0def
  have hnum : 0 < numFWords corpus := by
    unfold numFWords
    rw [List.length_pos]
    exact List.ne_nil_of_mem (List.mem_dedup.mpr hf)
  have hT0 : TablePos T0 := by
    constructor
    · show (0 : ℚ) < 1 / (numFWords corpus : ℚ)
      apply div_pos one_pos
      exact_mod_cast hnum
    · intro kv h
      simp [hT0def, initialize_translation_probability] at h
  have hT0keys : akeys T0.entries = [] := by
    simp [hT0def, initialize_translation_probability, akeys_nil]
  set tn := train_model corpus T0 n with htn
  have hTn : TablePos tn := (train_model_num corpus T0 n hWF hT0).1
  obtain ⟨w1, w2, w3⟩ := train_model_struct corpus T0 n
  have hTnkeys : ∀ k, k ∈ akeys tn.entries → k ∈ coPairs corpus := by
    intro k hk
    rcases w2 k hk with h | h
    · rw [hT0keys] at h; simp at h
    · exact h
  have hTnnd : (akeys tn.entries).Nodup := w3 (by rw [hT0keys]; exact List.nodup_nil)
  rw [train_model_succ]
  obtain ⟨s1, s2, s3, s4, s5⟩ := eStep_struct corpus tn
  obtain ⟨⟨p1, p2, p3, p4⟩, _⟩ := eStep_num corpus tn hWF hTn
  obtain ⟨k1, k2, k3⟩ :=
    mStep_fold_keys (eStep corpus tn).count (eStep corpus tn).total
      (eStep corpus tn).count (eStep corpus tn).table
  obtain ⟨v1, v2⟩ :=
    mStep_fold_vals (eStep corpus tn).count (eStep corpus tn).total
      (eStep corpus tn).count (eStep corpus tn).table s5
  have hmem : ∀ k, k ∈ akeys (trainStep corpus tn).entries
      ↔ k ∈ akeys (eStep corpus tn).count := by
    intro k
    constructor
    · intro hk
      rcases (k1 k).mp hk with h | h
      · rcases s2 k h with h2 | h2
        · exact (s4 k).mpr (hTnkeys k h2)
        · exact (s4 k).mpr h2
      · exact h
    · intro hk
      exact (k1 k).mpr (Or.inr hk)
  have hLnd : (akeys (trainStep corpus tn).entries).Nodup := k2 (s3 hTnnd)
  have hex : ∃ kv ∈ (eStep corpus tn).count, kv.1.2 = f := by
    rw [List.mem_flatMap] at hf
    obtain ⟨pr, hpr, hfin⟩ := hf
    obtain ⟨e, he⟩ := List.exists_mem_of_ne_nil pr.1 (hWF pr hpr).1
    have hco : (e, f) ∈ coPairs corpus :=
      (mem_coPairs corpus (e, f)).mpr ⟨pr, hpr, he, hfin⟩
    obtain ⟨kv, hkv, hkveq⟩ := (mem_akeys _ _).mp ((s4 (e, f)).mpr hco)
    exact ⟨kv, hkv, by rw [hkveq]⟩
  show rowSum (trainStep corpus tn) f = 1
  unfold rowSum
  exact rowSum_eq_one (trainStep corpus tn).entries
    (eStep corpus tn).count (eStep corpus tn).total f
    hLnd s5 hmem v1 (p4 f) p3 hex

theorem c2_normalization_invariant_witness :
    WFCorpus toyCorpus ∧
    "perro" ∈ toyCorpus.flatMap (fun pr => pr.2) ∧
    rowSum (train_model toyCorpus (initialize_translation_probability toyCorpus) 1)
      "perro" = 1 :=
  ⟨by unfold WFCorpus; decide, by decide,
   c2_normalization_invariant toyCorpus 0 "perro" (by unfold WFCorpus; decide) (by decide)⟩

/-! Characterization of the `get_max` loop. -/

theorem getMax_go_spec (L : List (Token × ℚ)) (acc : Option Token × ℚ) :
    (L.foldl getMaxStep acc = acc ∧ ∀ p ∈ L, p.2 ≤ acc.2) ∨
    (∃ i, ∃ h : i < L.length,
      L.foldl getMaxStep acc = (some (L.get ⟨i, h⟩).1, (L.get ⟨i, h⟩).2) ∧
      acc.2 < (L.get ⟨i, h⟩).2 ∧
      (∀ p ∈ L, p.2 ≤ (L.get ⟨i, h⟩).2) ∧
      (∀ j, ∀ hj : j < i, (L.get ⟨j, lt_trans hj h⟩).2 < (L.get ⟨i, h⟩).2)) := by
  induction L generalizing acc with
  | nil => exact Or.inl ⟨rfl, by simp⟩
  | cons p L ih =>
    rw [List.foldl_cons]
    by_cases hp : p.2 > acc.2
    · have hstep : getMaxStep acc p = (some p.1, p.2) := by
        unfold getMaxStep
        rw [if_pos hp]
      rw [hstep]
      rcases ih (some p.1, p.2) with ⟨h1, h2⟩ | ⟨i, hi, h1, h2, h3, h4⟩
      · refine Or.inr ⟨0, Nat.succ_pos _, ?_, hp, ?_, ?_⟩
        · exact h1
        · intro q hq
          rcases List.mem_cons.mp hq with rfl | hq
          · exact le_refl _
          · exact h2 q hq
        · intro j hj
          exact absurd hj (Nat.not_lt_zero j)
      · refine Or.inr ⟨i + 1, Nat.succ_lt_succ hi, ?_, lt_trans hp h2, ?_, ?_⟩
        · exact h1
        · intro q hq
          rcases List.mem_cons.mp hq with rfl | hq
          · exact le_of_lt h2
          · exact h3 q hq
        · intro j hj
          cases j with
          | zero => exact h2
          | succ j => exact h4 j (Nat.lt_of_succ_lt_succ hj)
    · have hstep : getMaxStep acc p = acc := by
        unfold getMaxStep
        rw [if_neg hp]
      rw [hstep]
      have hple : p.2 ≤ acc.2 := not_lt.mp hp
      rcases ih acc with ⟨h1, h2⟩ | ⟨i, hi, h1, h2, h3, h4⟩
      · refine Or.inl ⟨h1, ?_⟩
        intro q hq
        rcases List.mem_cons.mp hq with rfl | hq
        · exact hple
        · exact h2 q hq
      · refine Or.inr ⟨i + 1, Nat.succ_lt_succ hi, ?_, h2, ?_, ?_⟩
        · exact h1
        · intro q hq
          rcases List.mem_cons.mp hq with rfl | hq
          · exact le_of_lt (lt_of_le_of_lt hple h2)
          · exact h3 q hq
        · intro j hj
          cases j with
          | zero => exact lt_of_le_of_lt hple h2
          | succ j => exact h4 j (Nat.lt_of_succ_lt_succ hj)

/-- C6: for any source token with at least one entry in the conditional
dictionary (all probabilities positive, as every table value is), `get_max`
returns the first-encountered entry attaining the maximal probability —
strictly greater probabilities appear only after it, never before — and for
a source token with no entries it returns the sentinel `(none, 0)`. -/
theorem c6_get_max_is_first_max (cd : CDict) (f_word : Token) (arg : CDict)
    (hpos : ∀ p ∈ cdGet cd f_word, 0 < p.2) :
    (cdGet cd f_word = [] → get_max cd f_word arg = (none, 0)) ∧
    (cdGet cd f_word ≠ [] → ∃ i, ∃ h : i < (cdGet cd f_word).length,
      get_max cd f_word arg
        = (some ((cdGet cd f_word).get ⟨i, h⟩).1,
           ((cdGet cd f_word).get ⟨i, h⟩).2) ∧
      (∀ p ∈ cdGet cd f_word, p.2 ≤ ((cdGet cd f_word).get ⟨i, h⟩).2) ∧
      (∀ j, ∀ hj : j < i, ((cdGet cd f_word).get ⟨j, lt_trans hj h⟩).2
        < ((cdGet cd f_word).get ⟨i, h⟩).2)) := by
  constructor
  · intro hnil
    unfold get_max
    rw [hnil]
    rfl
  · intro hne
    unfold get_max
    rcases getMax_go_spec (cdGet cd f_word) (none, 0)
      with ⟨h1, h2⟩ | ⟨i, hi, h1, h2, h3, h4⟩
    · exfalso
      obtain ⟨p, hp⟩ := List.exists_mem_of_ne_nil _ hne
      exact absurd (h2 p hp) (not_le.mpr (hpos p hp))
    · exact ⟨i, hi, h1, h3, h4⟩

theorem c6_get_max_is_first_max_witness :
    (∀ p ∈ cdGet condToy "perro", 0 < p.2) ∧
    ((cdGet condToy "perro" = [] → get_max condToy "perro" [] = (none, 0)) ∧
     (cdGet condToy "perro" ≠ [] → ∃ i, ∃ h : i < (cdGet condToy "perro").length,
       get_max condToy "perro" []
         = (some ((cdGet condToy "perro").get ⟨i, h⟩).1,
            ((cdGet condToy "perro").get ⟨i, h⟩).2) ∧
       (∀ p ∈ cdGet condToy "perro", p.2 ≤ ((cdGet condToy "perro").get ⟨i, h⟩).2) ∧
       (∀ j, ∀ hj : j < i, ((cdGet condToy "perro").get ⟨j, lt_trans hj h⟩).2
         < ((cdGet condToy "perro").get ⟨i, h⟩).2))) := by
  have hpos : ∀ p ∈ cdGet condToy "perro", 0 < p.2 := by
    intro p hp
    simp [condToy, cdGet, alookup] at hp
    rcases hp with rfl | rfl | rfl <;> norm_num
  exact ⟨hpos, c6_get_max_is_first_max condToy "perro" [] hpos⟩

/-- C1, evaluated at the failing input: in the source, `sentence_total` is
zero-initialized once per iteration (line 64), OUTSIDE the loop over
sentence pairs, so it accumulates across pairs.  On `corpusC1` (uniform
initial probability 1/3) the value of `sentence_total["NULL"]` in effect
when the second sentence pair's evidence is accumulated is 4/3 — the sum
over BOTH pairs — whereas the per-sentence sum over the second pair's
foreign sentence (with the table state of that moment) is 2/3.  The E-step
leaves `sentence_total` untouched during the evidence loop, so the final
`st` of `eStep` is exactly the map those divisions read. -/
theorem c1_sentence_total_leaks_across_pairs :
    dget (eStep corpusC1 (initialize_translation_probability corpusC1)).st "NULL"
      = 4/3 ∧
    ((["NULL", "y"]).map (fun f =>
        Table.getVal (eStep (corpusC1.take 1)
          (initialize_translation_probability corpusC1)).table ("NULL", f))).sum
      = 2/3 ∧
    (4 : ℚ)/3 ≠ 2/3 := by
  refine ⟨?_, ?_, by norm_num⟩
  · simp [eStep, eStepGo, corpusC1, initialize_translation_probability, numFWords,
      totalPass, totalPassF, evidencePass, evidencePassF, Table.getItem, dget, dadd,
      aset, alookup]
    try norm_num
  · simp [eStep, eStepGo, corpusC1, initialize_translation_probability, numFWords,
      totalPass, totalPassF, evidencePass, evidencePassF, Table.getItem, Table.getVal,
      dget, dadd, aset, alookup]
    try norm_num

/-! The toy-pair fixed point (claim C8). -/

theorem getVal_const (t : Table) (c : ℚ) (hd : t.dflt = c)
    (he : ∀ kv ∈ t.entries, kv.2 = c) (p : WPair) : Table.getVal t p = c := by
  unfold Table.getVal
  cases hl : alookup t.entries p with
  | none => simpa using hd
  | some v => simpa using he _ (alookup_mem t.entries p v hl)

theorem toyTable_vals : ∀ kv ∈ toyTable.entries, kv.2 = 1/2 := by
  intro kv h
  simp [toyTable] at h
  rcases h with rfl | rfl | rfl | rfl <;> norm_num

theorem toy_step_init :
    trainStep toyCorpus (initialize_translation_probability toyCorpus) = toyTable := by
  simp [trainStep, eStep, eStepGo, toyCorpus, toyTable,
    initialize_translation_probability, numFWords, totalPass, totalPassF,
    evidencePass, evidencePassF, mStep, mStepGo, Table.getItem, Table.setItem,
    dget, dadd, aset, alookup]
  try norm_num

theorem toy_step_fixed : trainStep toyCorpus toyTable = toyTable := by
  simp [trainStep, eStep, eStepGo, toyCorpus, toyTable,
    initialize_translation_probability, numFWords, totalPass, totalPassF,
    evidencePass, evidencePassF, mStep, mStepGo, Table.getItem, Table.setItem,
    dget, dadd, aset, alookup]
  try norm_num

theorem toy_train_eq (n : Nat) :
    train_model toyCorpus (initialize_translation_probability toyCorpus) (n + 1)
      = toyTable := by
  induction n with
  | zero =>
    rw [train_model_succ]
    exact toy_step_init
  | succ n ih =>
    rw [train_model_succ, ih]
    exact toy_step_fixed

theorem initialize_corpus_replicate (pr : Sentence × Sentence) (N : Nat)
    (hN : 1 ≤ N) : initialize_corpus (List.replicate N pr) = [pr] := by
  obtain ⟨M, rfl⟩ : ∃ M, N = M + 1 := ⟨N - 1, by omega⟩
  clear hN
  unfold initialize_corpus
  rw [List.replicate_succ, List.foldl_cons]
  have hstep : aset ([] : Corpus) pr.1 pr.2 = [pr] := rfl
  rw [hstep]
  induction M with
  | zero => rfl
  | succ M ih =>
    rw [List.replicate_succ, List.foldl_cons]
    have hfix : aset [pr] pr.1 pr.2 = [pr] := by simp [aset]
    rw [hfix]
    exact ih

/-- C8 (amended): a corpus of N identical copies of the toy pair
E = ["NULL","dog"], F = ["NULL","perro"] collapses (dict keyed by E) to the
single pair, and on it the uniform table is an exact fixed point of EM: for
EVERY iteration count and every source token f, t("dog"|f) stays exactly at
the initial uniform value 1/2.  No convergence toward 1.0 (for "perro") or
0.0 (for other tokens) occurs — the symmetric pair gives EM no evidence to
prefer the 1:1 alignment. -/
theorem c8_toy_pair_fixed_at_uniform (N n : Nat) (hN : 1 ≤ N) (f : Token) :
    initialize_corpus (List.replicate N (["NULL", "dog"], ["NULL", "perro"]))
      = toyCorpus ∧
    Table.getVal (train_model toyCorpus
      (initialize_translation_probability toyCorpus) n) ("dog", f) = 1/2 := by
  refine ⟨initialize_corpus_replicate _ N hN, ?_⟩
  cases n with
  | zero =>
    show Table.getVal (initialize_translation_probability toyCorpus) ("dog", f) = 1/2
    apply getVal_const
    · show (1 : ℚ) / (numFWords toyCorpus : ℚ) = 1/2
      rw [show numFWords toyCorpus = 2 from by decide]
      norm_num
    · intro kv h
      simp [initialize_translation_probability] at h
  | succ n =>
    rw [toy_train_eq n]
    exact getVal_const toyTable (1/2) rfl toyTable_vals ("dog", f)

theorem c8_toy_pair_fixed_at_uniform_witness :
    1 ≤ 3 ∧
    (initialize_corpus (List.replicate 3 (["NULL", "dog"], ["NULL", "perro"]))
       = toyCorpus ∧
     Table.getVal (train_model toyCorpus
       (initialize_translation_probability toyCorpus) 5) ("dog", "perro") = 1/2) :=
  ⟨by norm_num, c8_toy_pair_fixed_at_uniform 3 5 (by norm_num) "perro"⟩

/-- C8, counterexample to the claimed convergence: on the spec's own toy
corpus, t("dog"|"perro") equals 1/2 before training and still equals exactly
1/2 after 100 iterations (the program default) and after 10000 iterations —
it is bounded away from 1.0 forever, so it does not converge toward 1.0. -/
theorem c8_counterexample_no_convergence :
    Table.getVal (train_model toyCorpus
      (initialize_translation_probability toyCorpus) 0) ("dog", "perro") = 1/2 ∧
    Table.getVal (train_model toyCorpus
      (initialize_translation_probability toyCorpus) 100) ("dog", "perro") = 1/2 ∧
    Table.getVal (train_model toyCorpus
      (initialize_translation_probability toyCorpus) 10000) ("dog", "perro") = 1/2 ∧
    (1/2 : ℚ) ≠ 1 := by
  have h0 : Table.getVal (initialize_translation_probability toyCorpus)
      ("dog", "perro") = 1/2 := by
    apply getVal_const
    · show (1 : ℚ) / (numFWords toyCorpus : ℚ) = 1/2
      rw [show numFWords toyCorpus = 2 from by decide]
      norm_num
    · intro kv h
      simp [initialize_translation_probability] at h
  refine ⟨h0, ?_, ?_, by norm_num⟩
  · rw [show (100 : Nat) = 99 + 1 from by norm_num, toy_train_eq 99]
    exact getVal_const toyTable (1/2) rfl toyTable_vals _
  · rw [show (10000 : Nat) = 9999 + 1 from by norm_num, toy_train_eq 9999]
    exact getVal_const toyTable (1/2) rfl toyTable_vals _
